import Mathlib

/-! Verification of the paginated bounded aggregator implemented by
`NextSonarrEpisodes` in `flexget/plugins/input/next_sonarr_episodes.py`.

The embedding models:
 - a raw Sonarr record (`RawRecord`) as returned inside one listing page,
 - a listing page (`Page`) with its `totalRecords` field,
 - the configured limit, which the JSON schema allows to be an integer or
   a boolean (`LimitConfig`); Python compares integers and booleans
   numerically (`False = 0`, `True = 1`), which `LimitConfig.pyVal` captures,
 - the produced FlexGet entry (`Entry`) with the fields set by the plugin,
 - the whole `on_task_input` generator as a function from a fetch capability
   (one call per requested page number, which may fail like a
   `RequestException`) to a `RunResult` holding the yielded entries, the
   invalid-entry diagnostics, the propagated error (if any) and the list of
   page numbers for which the fetch capability was invoked, in order.
-/

namespace NextSonarrEpisodes

/-- One raw record of the Sonarr `wanted/missing` listing: a series (group)
identifier, season and episode numbers, the series title and the optional
cross-reference ids.  A missing/empty JSON title is modelled as `""`. -/
structure RawRecord where
  seriesId : Nat
  seasonNumber : Nat
  episodeNumber : Nat
  seriesTitle : String
  tvdbId : Option Nat
  tvRageId : Option Nat
  tvMazeId : Option Nat
deriving Repr, DecidableEq

/-- One listing page: the full result-set size reported by the server and
the records of this page, in source order. -/
structure Page where
  totalRecords : Nat
  records : List RawRecord
deriving Repr, DecidableEq

/-- The `limit` configuration value: the JSON schema allows an integer or a
boolean. -/
inductive LimitConfig where
  | bool (b : Bool)
  | int (n : Int)
deriving Repr, DecidableEq

/-- The numeric value Python uses when the raw config value appears in a
comparison such as `series_counter[...] < config.get('limit')`:
`False` compares as `0`, `True` as `1`, an integer as itself. -/
def LimitConfig.pyVal : LimitConfig → Int
  | .bool false => 0
  | .bool true => 1
  | .int n => n

/-- The normalized limit computed (but never used again) by the code:
`False` becomes the infinite sentinel (`none`, for `math.inf`), `True`
becomes `1`, an integer stays itself (`limit = int(limit)`). -/
def LimitConfig.normalized : LimitConfig → Option Int
  | .bool false => none
  | .bool true => some 1
  | .int n => some n

/-- A transport/connection failure of the fetch capability
(a `RequestException`). -/
inductive FetchErr where
  | requestException (msg : String)
deriving Repr, DecidableEq

/-- The `plugin.PluginError` that `get_page` raises when the fetch
capability fails; it wraps the underlying failure, so it is distinguishable
as a fetch error. -/
structure PluginError where
  cause : FetchErr
deriving Repr, DecidableEq

/-- `get_page`: requests one page from the fetch capability and wraps a
`RequestException` into a `PluginError` (`raise plugin.PluginError(...)`). -/
def get_page (fetch : Nat → Except FetchErr Page) (page_number : Nat) :
    Except PluginError Page :=
  match fetch page_number with
  | .ok json => .ok json
  | .error e => .error ⟨e⟩

/-- Decimal digit character, the relevant part of Python integer
formatting (`str`, `%d`). -/
def digitCh (d : Nat) : Char :=
  Char.ofNat (48 + d)

/-- Fuel-driven construction of the decimal digit list of `n`,
most significant digit first (`acc` collects already-produced lower
digits). -/
def decDigits : Nat → Nat → List Char → List Char
  | 0, _, acc => acc
  | fuel + 1, n, acc =>
    if n < 10 then digitCh n :: acc
    else decDigits fuel (n / 10) (digitCh (n % 10) :: acc)

/-- Decimal rendering of a natural number, as Python `str` / `%d` does. -/
def decStr (n : Nat) : String :=
  String.mk (decDigits (n + 1) n [])

/-- Zero-padding of a string to width 2: shorter strings are filled with
leading `0` characters, strings of length at least 2 are unchanged (no
truncation).  This is what Python's `'%02d'` format does to the decimal
rendering of a non-negative integer. -/
def padTo2 (s : String) : String :=
  if 2 ≤ s.length then s
  else String.mk (List.replicate (2 - s.length) (digitCh 0)) ++ s

/-- `'S%02dE%02d' % (season, episode)`: the composite season/episode code. -/
def seCode (season episode : Nat) : String :=
  "S" ++ padTo2 (decStr season) ++ "E" ++ padTo2 (decStr episode)

/-- The FlexGet entry constructed by the plugin, with exactly the fields the
source sets. -/
structure Entry where
  url : String
  series_name : String
  series_season : Nat
  series_episode : Nat
  series_id : String
  tvdb_id : Option Nat
  tvrage_id : Option Nat
  tvmaze_id : Option Nat
  title : String
deriving Repr, DecidableEq

/-- The `Entry(...)` construction of the plugin for one raw record. -/
def mkEntry (r : RawRecord) : Entry where
  url := ""
  series_name := r.seriesTitle
  series_season := r.seasonNumber
  series_episode := r.episodeNumber
  series_id := seCode r.seasonNumber r.episodeNumber
  tvdb_id := r.tvdbId
  tvrage_id := r.tvRageId
  tvmaze_id := r.tvMazeId
  title := r.seriesTitle ++ " " ++ seCode r.seasonNumber r.episodeNumber

/-- Modelled from the spec: `Entry.isvalid` lives in `flexget/entry.py`,
which is not among the supplied sources.  The spec's validity predicate
requires the identity fields (title, group id, season, episode) to be
present and non-empty/non-null; in this embedding the group id, season and
episode are always-present naturals, so validity reduces to the series
title being non-empty (a record whose JSON title field is missing/empty is
modelled by `seriesTitle = ""`). -/
def Entry.isvalid (e : Entry) : Bool :=
  e.series_name ≠ ""

/-- A diagnostics event: the `logger.error('Invalid entry created? {}', entry)`
report for an entry that failed the validity check. -/
inductive Diag where
  | invalidEntry (e : Entry)
deriving Repr, DecidableEq

/-- The per-run series counter (`Counter()`): every unseen key reads 0. -/
def counter0 : Nat → Nat := fun _ => 0

/-- `series_counter[id] += 1`. -/
def bump (c : Nat → Nat) (id : Nat) : Nat → Nat :=
  fun i => if i = id then c i + 1 else c i

/-- The inner `for record in json['records']` loop of `on_task_input`:
threads the series counter, yields the valid entries of records whose
series is still under the (raw) limit, and reports invalid entries.
Returns (yielded entries, diagnostics, final counter). -/
def processRecords (limit : LimitConfig) :
    List RawRecord → (Nat → Nat) → List Entry × List Diag × (Nat → Nat)
  | [], counter => ([], [], counter)
  | r :: rest, counter =>
    if (counter r.seriesId : Int) < limit.pyVal then
      let counter2 := bump counter r.seriesId
      let entry := mkEntry r
      let t := processRecords limit rest counter2
      if entry.isvalid then (entry :: t.1, t.2.1, t.2.2)
      else (t.1, .invalidEntry entry :: t.2.1, t.2.2)
    else
      processRecords limit rest counter

/-- The outcome of one aggregation run: the entries yielded (in order), the
diagnostics reported, the error that aborted the run (if any), and the page
numbers passed to the fetch capability, in call order. -/
structure RunResult where
  entries : List Entry
  diags : List Diag
  error : Option PluginError
  calls : List Nat
deriving Repr, DecidableEq

/-- The `for page in range(1, pages + 1)` loop of `on_task_input` over an
explicit list of page numbers: page 1 reuses `firstJson` (the page fetched
before the loop), later pages are fetched through `get_page`; a fetch
failure aborts the loop, keeping the entries already yielded. -/
def runFrom (fetch : Nat → Except FetchErr Page) (limit : LimitConfig)
    (firstJson : Page) : List Nat → (Nat → Nat) → RunResult
  | [], _ => ⟨[], [], none, []⟩
  | page :: rest, counter =>
    if 1 < page then
      match get_page fetch page with
      | .error pe => ⟨[], [], some pe, [page]⟩
      | .ok json =>
        let t := processRecords limit json.records counter
        let r := runFrom fetch limit firstJson rest t.2.2
        ⟨t.1 ++ r.entries, t.2.1 ++ r.diags, r.error, page :: r.calls⟩
    else
      let t := processRecords limit firstJson.records counter
      let r := runFrom fetch limit firstJson rest t.2.2
      ⟨t.1 ++ r.entries, t.2.1 ++ r.diags, r.error, r.calls⟩

/-- `int(math.ceil(json['totalRecords'] / config.get('page_size')))` for a
positive integral page size: the ceiling of the true division, which for
naturals is `(t + p - 1) / p`. -/
def totalPages (t p : Nat) : Nat :=
  (t + p - 1) / p

/-- `on_task_input`: fetches page 1, derives the page count from its
`totalRecords`, and runs the page loop with a fresh series counter.  A
failure of the very first fetch aborts immediately. -/
def on_task_input (fetch : Nat → Except FetchErr Page) (page_size : Nat)
    (limit : LimitConfig) : RunResult :=
  match get_page fetch 1 with
  | .error pe => ⟨[], [], some pe, [1]⟩
  | .ok json =>
    let pages := totalPages json.totalRecords page_size
    let r := runFrom fetch limit json (List.range' 1 pages) counter0
    ⟨r.entries, r.diags, r.error, 1 :: r.calls⟩

/-- A fetch capability backed by a fixed list of pages: page `n` (1-based)
is served from the list; a page beyond the list fails like a connection
error. -/
def fetchOfPages (ps : List Page) : Nat → Except FetchErr Page :=
  fun n =>
    match ps[n - 1]? with
    | some pg => .ok pg
    | none => .error (.requestException "connection refused")

/-- The records that `on_task_input` actually emits out of a record list:
the mirror of `processRecords` that keeps the raw record instead of
building the entry.  Used to state order/count properties of the output. -/
def emittedRecords (limit : LimitConfig) :
    List RawRecord → (Nat → Nat) → List RawRecord
  | [], _ => []
  | r :: rest, counter =>
    if (counter r.seriesId : Int) < limit.pyVal then
      if (mkEntry r).isvalid then r :: emittedRecords limit rest (bump counter r.seriesId)
      else emittedRecords limit rest (bump counter r.seriesId)
    else
      emittedRecords limit rest counter

/-- The multi-page record loop: processes the records of each page in
order, threading the series counter across pages, and concatenates the
yielded entries and the diagnostics. -/
def processPages (limit : LimitConfig) :
    List Page → (Nat → Nat) → List Entry × List Diag × (Nat → Nat)
  | [], c => ([], [], c)
  | pg :: rest, c =>
    let t := processRecords limit pg.records c
    let u := processPages limit rest t.2.2
    (t.1 ++ u.1, t.2.1 ++ u.2.1, u.2.2)

/-- Number of records of group `g` in a record list. -/
def countG (g : Nat) (rs : List RawRecord) : Nat :=
  rs.countP (fun r => r.seriesId = g)

theorem bump_ne (c : Nat → Nat) (id i : Nat) (h : i ≠ id) : bump c id i = c i := by
  simp [bump, h]

theorem bump_self (c : Nat → Nat) (id : Nat) : bump c id id = c id + 1 := by
  simp [bump]

/-- The entries produced by the inner loop are exactly the images under
`mkEntry` of the records it emits. -/
theorem processRecords_entries (limit : LimitConfig) (rs : List RawRecord)
    (c : Nat → Nat) :
    (processRecords limit rs c).1 = (emittedRecords limit rs c).map mkEntry := by
  induction rs generalizing c with
  | nil => rfl
  | cons r rest ih =>
    simp only [processRecords, emittedRecords]
    split
    · split
      · simp [ih]
      · simp [ih]
    · exact ih c

/-- The emitted records form a sublist of the processed records: the inner
loop never reorders, duplicates or invents records. -/
theorem emittedRecords_sublist (limit : LimitConfig) (rs : List RawRecord)
    (c : Nat → Nat) : List.Sublist (emittedRecords limit rs c) rs := by
  induction rs generalizing c with
  | nil => exact List.Sublist.refl []
  | cons r rest ih =>
    simp only [emittedRecords]
    split
    · split
      · exact List.Sublist.cons₂ r (ih (bump c r.seriesId))
      · exact List.Sublist.cons r (ih (bump c r.seriesId))
    · exact List.Sublist.cons r (ih c)

/-- Processing a concatenation processes the two parts in sequence,
threading the counter. -/
theorem processRecords_append (limit : LimitConfig) (xs ys : List RawRecord)
    (c : Nat → Nat) :
    processRecords limit (xs ++ ys) c =
      ((processRecords limit xs c).1 ++
         (processRecords limit ys (processRecords limit xs c).2.2).1,
       (processRecords limit xs c).2.1 ++
         (processRecords limit ys (processRecords limit xs c).2.2).2.1,
       (processRecords limit ys (processRecords limit xs c).2.2).2.2) := by
  induction xs generalizing c with
  | nil => simp [processRecords]
  | cons r rest ih =>
    simp only [List.cons_append, processRecords]
    split
    · split
      · simp [ih]
      · simp [ih]
    · exact ih c

/-- The page loop is the record loop over the concatenation of the pages'
records. -/
theorem processPages_eq_flat (limit : LimitConfig) (ps : List Page)
    (c : Nat → Nat) :
    processPages limit ps c =
      processRecords limit ((ps.map Page.records).flatten) c := by
  induction ps generalizing c with
  | nil => rfl
  | cons pg rest ih =>
    simp only [processPages, List.map_cons, List.flatten_cons,
      processRecords_append, ih]

/-- Successful page loop: if the fetch capability answers every page number
`start + i` with the page `qs[i]`, the loop over those page numbers (all
`≥ 2`, so none of them reuses the pre-fetched first page) processes the
pages in order, calls the fetch capability once per page, and raises no
error. -/
theorem runFrom_ok (fetch : Nat → Except FetchErr Page) (limit : LimitConfig)
    (fj : Page) (qs : List Page) :
    ∀ (start : Nat) (c : Nat → Nat), 2 ≤ start →
      (∀ i, (hi : i < qs.length) → fetch (start + i) = .ok (qs.get ⟨i, hi⟩)) →
      runFrom fetch limit fj (List.range' start qs.length) c =
        ⟨(processPages limit qs c).1, (processPages limit qs c).2.1, none,
          List.range' start qs.length⟩ := by
  induction qs with
  | nil => intro start c _ _; rfl
  | cons pg rest ih =>
    intro start c hs hf
    have h0 : fetch start = .ok pg := by
      have := hf 0 (by simp)
      simpa using this
    have hrest : ∀ i, (hi : i < rest.length) →
        fetch (start + 1 + i) = .ok (rest.get ⟨i, hi⟩) := by
      intro i hi
      have := hf (i + 1) (by simpa using Nat.succ_lt_succ hi)
      simpa [Nat.add_assoc, Nat.add_comm 1 i] using this
    have hlt : 1 < start := hs
    simp only [List.length_cons, List.range'_succ, runFrom, if_pos hlt,
      get_page, h0]
    rw [ih (start + 1) _ (by omega) hrest]
    simp [processPages]

/-- Failing page loop: the fetch capability answers the page numbers
`start..start + qs.length - 1` but fails at `start + qs.length`, while the
loop still has `m` further page numbers to go.  The loop processes the
successful pages, stops at the failing call with the wrapped error, keeps
the entries already yielded, and never calls the fetch capability for any
later page number. -/
theorem runFrom_fail (fetch : Nat → Except FetchErr Page) (limit : LimitConfig)
    (fj : Page) (qs : List Page) (e : FetchErr) :
    ∀ (start m : Nat) (c : Nat → Nat), 2 ≤ start →
      (∀ i, (hi : i < qs.length) → fetch (start + i) = .ok (qs.get ⟨i, hi⟩)) →
      fetch (start + qs.length) = .error e →
      runFrom fetch limit fj (List.range' start (qs.length + 1 + m)) c =
        ⟨(processPages limit qs c).1, (processPages limit qs c).2.1,
          some ⟨e⟩, List.range' start (qs.length + 1)⟩ := by
  induction qs with
  | nil =>
    intro start m c hs _ herr
    have hlt : 1 < start := hs
    have herr0 : fetch start = .error e := by simpa using herr
    have hm : (List.nil : List Page).length + 1 + m = m + 1 := by
      simp
      omega
    rw [hm, List.range'_succ]
    simp [runFrom, if_pos hlt, get_page, herr0, processPages,
      List.range'_one]
  | cons pg rest ih =>
    intro start m c hs hf herr
    have h0 : fetch start = .ok pg := by
      have := hf 0 (by simp)
      simpa using this
    have hrest : ∀ i, (hi : i < rest.length) →
        fetch (start + 1 + i) = .ok (rest.get ⟨i, hi⟩) := by
      intro i hi
      have := hf (i + 1) (by simpa using Nat.succ_lt_succ hi)
      simpa [Nat.add_assoc, Nat.add_comm 1 i] using this
    have herr1 : fetch (start + 1 + rest.length) = .error e := by
      have h2 : start + 1 + rest.length = start + (rest.length + 1) := by omega
      rw [h2]
      simpa using herr
    have hlt : 1 < start := hs
    have hsplit : (pg :: rest).length + 1 + m = (rest.length + 1 + m) + 1 := by
      simp; omega
    rw [hsplit, List.range'_succ]
    simp only [runFrom, if_pos hlt, get_page, h0]
    rw [ih (start + 1) m _ (by omega) hrest herr1]
    simp [processPages, List.length_cons, List.range'_succ]

theorem fetchOfPages_ok (ps : List Page) (i : Nat) (pg : Page)
    (h : ps[i]? = some pg) : fetchOfPages ps (i + 1) = .ok pg := by
  simp [fetchOfPages, h]

/-- Bridge: a run against a fetch capability backed by the page list `ps`,
where `ps` holds exactly the pages the run touches (one page when
`totalPages = 0`, otherwise `totalPages` pages).  The run fetches pages
`1..max 1 totalPages` once each, processes the records of the first
`totalPages` pages in order with a fresh counter, and raises no error. -/
theorem on_task_input_pages (ps : List Page) (p : Nat) (limit : LimitConfig)
    (pg0 : Page) (h0 : ps[0]? = some pg0)
    (hlen : ps.length = max 1 (totalPages pg0.totalRecords p)) :
    on_task_input (fetchOfPages ps) p limit =
      ⟨(processPages limit (ps.take (totalPages pg0.totalRecords p)) counter0).1,
       (processPages limit (ps.take (totalPages pg0.totalRecords p)) counter0).2.1,
       none, List.range' 1 (max 1 (totalPages pg0.totalRecords p))⟩ := by
  have hf1 : fetchOfPages ps 1 = .ok pg0 := fetchOfPages_ok ps 0 pg0 h0
  cases hN : totalPages pg0.totalRecords p with
  | zero =>
    simp only [on_task_input, get_page, hf1, hN]
    rfl
  | succ n =>
    have hlen2 : ps.length = n + 1 := by
      rw [hlen, hN]; omega
    obtain ⟨tail, rfl⟩ : ∃ t, ps = pg0 :: t := by
      cases ps with
      | nil => simp at h0
      | cons a t =>
        simp only [List.getElem?_cons_zero, Option.some_inj] at h0
        exact ⟨t, by rw [h0]⟩
    have htail : tail.length = n := by simpa using hlen2
    have hrest : ∀ i, (hi : i < tail.length) →
        fetchOfPages (pg0 :: tail) (2 + i) = .ok (tail.get ⟨i, hi⟩) := by
      intro i hi
      have hidx : (pg0 :: tail)[i + 1]? = some (tail.get ⟨i, hi⟩) := by
        simp [List.getElem?_cons_succ, List.getElem?_eq_getElem hi]
      have := fetchOfPages_ok (pg0 :: tail) (i + 1) _ hidx
      simpa [Nat.add_comm 1 i, Nat.add_comm 2 i, Nat.add_assoc] using this
    simp only [on_task_input, get_page, hf1, hN, List.range'_succ]
    simp only [runFrom, show ¬(1 < 1) by omega, if_neg, get_page]
    rw [htail.symm] at hN ⊢
    rw [runFrom_ok (fetchOfPages (pg0 :: tail)) limit pg0 tail 2 _ (by omega)
      hrest]
    have htake : (pg0 :: tail).take (tail.length + 1) = pg0 :: tail := by
      apply List.take_of_length_le
      simp
    rw [htake]
    have hmax : max 1 (tail.length + 1) = tail.length + 1 := by omega
    rw [hmax, List.range'_succ]
    simp [processPages]

theorem countG_cons_self (g : Nat) (r : RawRecord) (rs : List RawRecord)
    (h : r.seriesId = g) : countG g (r :: rs) = countG g rs + 1 := by
  simp [countG, List.countP_cons, h]

theorem countG_cons_ne (g : Nat) (r : RawRecord) (rs : List RawRecord)
    (h : ¬r.seriesId = g) : countG g (r :: rs) = countG g rs := by
  simp [countG, List.countP_cons, h]

/-- Per-group upper bound: with an integer limit the emitted records of
group `g` never exceed the remaining allowance `L - c g`. -/
theorem emitted_count_le (L : Int) (g : Nat) (rs : List RawRecord) :
    ∀ c : Nat → Nat, countG g (emittedRecords (.int L) rs c) ≤ L.toNat - c g := by
  induction rs with
  | nil => intro c; simp [emittedRecords, countG]
  | cons r rest ih =>
    intro c
    have hb := ih (bump c r.seriesId)
    have hc0 := ih c
    simp only [emittedRecords, LimitConfig.pyVal]
    by_cases hg : r.seriesId = g
    · subst hg
      rw [bump_self] at hb
      split
      · rename_i hck
        have hlt : c r.seriesId < L.toNat := by omega
        split
        · rw [countG_cons_self _ _ _ rfl]
          omega
        · omega
      · exact hc0
    · rw [bump_ne c r.seriesId g (fun h => hg h.symm)] at hb
      split
      · split
        · rw [countG_cons_ne _ _ _ hg]
          omega
        · exact hb
      · exact hc0

/-- Per-group exact count: when every record is valid, the emitted records
of group `g` are exactly the remaining allowance or all of them, whichever
is smaller. -/
theorem emitted_count_eq (L : Int) (g : Nat) (rs : List RawRecord)
    (hval : ∀ r ∈ rs, (mkEntry r).isvalid = true) :
    ∀ c : Nat → Nat, countG g (emittedRecords (.int L) rs c) =
      min (L.toNat - c g) (countG g rs) := by
  induction rs with
  | nil => intro c; simp [emittedRecords, countG]
  | cons r rest ih =>
    have hvr : (mkEntry r).isvalid = true := hval r (by simp)
    have hvrest : ∀ x ∈ rest, (mkEntry x).isvalid = true := by
      intro x hx
      exact hval x (by simp [hx])
    intro c
    have hb := ih hvrest (bump c r.seriesId)
    have hc0 := ih hvrest c
    simp only [emittedRecords, LimitConfig.pyVal, hvr, if_true]
    by_cases hg : r.seriesId = g
    · subst hg
      rw [bump_self] at hb
      rw [countG_cons_self _ _ _ rfl]
      split
      · rename_i hck
        rw [countG_cons_self _ _ _ rfl]
        omega
      · rename_i hck
        rw [hc0]
        omega
    · rw [bump_ne c r.seriesId g (fun h => hg h.symm)] at hb
      rw [countG_cons_ne _ _ _ hg]
      split
      · rw [countG_cons_ne _ _ _ hg]
        exact hb
      · exact hc0

/-- The final counter of the inner loop after a cons: the validity check
does not affect the counter. -/
theorem processRecords_cons_counter (limit : LimitConfig) (r : RawRecord)
    (rest : List RawRecord) (c : Nat → Nat) :
    (processRecords limit (r :: rest) c).2.2 =
      if (c r.seriesId : Int) < limit.pyVal
      then (processRecords limit rest (bump c r.seriesId)).2.2
      else (processRecords limit rest c).2.2 := by
  simp only [processRecords]
  split
  · split <;> rfl
  · rfl

/-- Final counter value for a group under an integer limit: the counter
counts every considered record of the group (valid or not) up to the cap,
and a record skipped by the cap check does not increment it. -/
theorem processRecords_counter_int (L : Int) (g : Nat) (rs : List RawRecord) :
    ∀ c : Nat → Nat, c g ≤ L.toNat →
      (processRecords (.int L) rs c).2.2 g = min L.toNat (c g + countG g rs) := by
  induction rs with
  | nil =>
    intro c hc
    simp only [processRecords, countG, List.countP_nil, Nat.add_zero]
    omega
  | cons r rest ih =>
    intro c hc
    rw [processRecords_cons_counter]
    simp only [LimitConfig.pyVal]
    by_cases hg : r.seriesId = g
    · subst hg
      rw [countG_cons_self _ _ _ rfl]
      split
      · rename_i hck
        rw [ih (bump c r.seriesId) (by rw [bump_self]; omega), bump_self]
        omega
      · rename_i hck
        rw [ih c hc]
        omega
    · rw [countG_cons_ne _ _ _ hg]
      split
      · rw [ih (bump c r.seriesId)
          (by rw [bump_ne c r.seriesId g (fun h => hg h.symm)]; omega),
          bump_ne c r.seriesId g (fun h => hg h.symm)]
      · rw [ih c hc]

/-- With the raw boolean `false` as limit the count check compares against
`0`, which a natural-number count never goes below: nothing is ever
emitted, reported or counted. -/
theorem processRecords_boolFalse (rs : List RawRecord) :
    ∀ c : Nat → Nat, processRecords (.bool false) rs c = ([], [], c) := by
  induction rs with
  | nil => intro c; rfl
  | cons r rest ih =>
    intro c
    simp only [processRecords, LimitConfig.pyVal]
    rw [if_neg (by omega)]
    exact ih c

theorem processPages_boolFalse (ps : List Page) (c : Nat → Nat) :
    processPages (.bool false) ps c = ([], [], c) := by
  rw [processPages_eq_flat]
  exact processRecords_boolFalse _ c

/-- The mathematical ceiling of the true division `t / p`, as
`math.ceil` computes it on exact arithmetic. -/
def specCeil (t p : Nat) : Nat := ⌈(t : ℚ) / (p : ℚ)⌉₊

/-- The page-count formula of the code equals the ceiling of `t / p` for
every positive page size. -/
theorem totalPages_eq_specCeil (t p : Nat) (hp : 0 < p) :
    totalPages t p = specCeil t p := by
  have hq : (0 : ℚ) < (p : ℚ) := by exact_mod_cast hp
  have key := Nat.div_add_mod (t + p - 1) p
  have hr : (t + p - 1) % p < p := Nat.mod_lt _ hp
  have h1 : t ≤ p * ((t + p - 1) / p) := by omega
  rcases Nat.eq_zero_or_pos t with ht | ht
  · subst ht
    have : totalPages 0 p = 0 := by
      simp only [totalPages, Nat.zero_add]
      exact Nat.div_eq_of_lt (by omega)
    rw [this]
    simp [specCeil]
  · apply le_antisymm
    · rcases Nat.eq_zero_or_pos (totalPages t p) with hN | hN
      · omega
      · have h2 : (totalPages t p - 1) * p < t := by
          rw [Nat.sub_one_mul, Nat.mul_comm]
          simp only [totalPages] at hN ⊢
          omega
        have h3 : totalPages t p - 1 < specCeil t p := by
          rw [specCeil, Nat.lt_ceil, lt_div_iff₀ hq]
          exact_mod_cast h2
        omega
    · rw [specCeil, Nat.ceil_le, div_le_iff₀ hq]
      have h4 : t ≤ (totalPages t p) * p := by
        show t ≤ (t + p - 1) / p * p
        rw [Nat.mul_comm]
        exact h1
      exact_mod_cast h4

theorem decDigits_length (fuel : Nat) :
    ∀ (n : Nat) (acc : List Char), 1 ≤ fuel →
      acc.length + 1 ≤ (decDigits fuel n acc).length := by
  induction fuel with
  | zero => intro n acc h; omega
  | succ f ih =>
    intro n acc _
    simp only [decDigits]
    split
    · simp
    · cases f with
      | zero => simp [decDigits]
      | succ g =>
        have h := ih (n / 10) (digitCh (n % 10) :: acc) (by omega)
        simp only [List.length_cons] at h
        omega

/-- A number of at least two decimal digits renders to a string of length
at least 2. -/
theorem decStr_length_of_ten (n : Nat) (h : 10 ≤ n) : 2 ≤ (decStr n).length := by
  have h1 : decDigits (n + 1) n [] = decDigits n (n / 10) [digitCh (n % 10)] := by
    simp only [decDigits]
    rw [if_neg (by omega)]
  have h2 := decDigits_length n (n / 10) [digitCh (n % 10)] (by omega)
  simp only [List.length_cons, List.length_nil] at h2
  show 2 ≤ (decDigits (n + 1) n []).length
  rw [h1]
  omega

theorem padTo2_eq_self (s : String) (h : 2 ≤ s.length) : padTo2 s = s :=
  if_pos h

/-! Sample records and pages used to instantiate the theorems. -/

def rShow : RawRecord := ⟨5, 1, 2, "Show", none, none, none⟩

def rA : RawRecord := ⟨1, 1, 1, "Alpha", some 11, none, none⟩

def rB : RawRecord := ⟨2, 1, 1, "Beta", none, some 22, none⟩

def rA2 : RawRecord := ⟨1, 1, 2, "Alpha", some 11, none, none⟩

def ps2 : List Page := [⟨3, [rA, rB]⟩, ⟨3, [rA2]⟩]

def rBad : RawRecord := ⟨3, 1, 1, "", none, none, none⟩

def rBad7 : RawRecord := ⟨7, 1, 1, "", none, none, none⟩

def rGood7 : RawRecord := ⟨7, 1, 2, "Gamma", none, none, none⟩

def sC1 : RawRecord := ⟨9, 1, 1, "Delta", none, none, none⟩

def sC2 : RawRecord := ⟨9, 1, 2, "Delta", none, none, none⟩

def sC3 : RawRecord := ⟨9, 1, 3, "Delta", none, none, none⟩

/-- C1: the spec says a boolean `false` limit is unlimited (every item
passes the count check) and a boolean `true` limit means 1.  The code's own
docstring ("no returns all found episodes") and its normalization comment
agree, but the count check compares against the raw configured value, so
with `false` the check is `count < 0` and nothing is emitted: with one
available valid record and limit `false` the run yields no entries (and no
error), while with limit `true` it yields exactly that one record. -/
theorem claim_C1 :
    (on_task_input (fetchOfPages [⟨1, [rShow]⟩]) 50 (.bool false)).entries = [] ∧
    (on_task_input (fetchOfPages [⟨1, [rShow]⟩]) 50 (.bool false)).error = none ∧
    (on_task_input (fetchOfPages [⟨1, [rShow]⟩]) 50 (.bool true)).entries =
      [mkEntry rShow] := by
  refine ⟨rfl, rfl, rfl⟩

/-- C2: the spec says that with the unlimited marker (boolean `false`)
every valid raw item across all pages is emitted exactly once.  The code
instead emits nothing: with two pages holding three valid records and
limit `false`, both pages are fetched but the output is empty. -/
theorem claim_C2 :
    ((ps2.map Page.records).flatten).length = 3 ∧
    (∀ r ∈ (ps2.map Page.records).flatten, (mkEntry r).isvalid = true) ∧
    (on_task_input (fetchOfPages ps2) 2 (.bool false)).entries = [] ∧
    (on_task_input (fetchOfPages ps2) 2 (.bool false)).calls = [1, 2] := by
  refine ⟨rfl, by decide, rfl, rfl⟩

/-- C5: a run whose first page reports `totalRecords = 0` computes zero
pages, yields nothing, reports nothing, raises no error and calls the
fetch capability exactly once (page 1). -/
theorem claim_C5 (fetch : Nat → Except FetchErr Page) (p : Nat)
    (limit : LimitConfig) (pg0 : Page) (h1 : fetch 1 = .ok pg0)
    (h0 : pg0.totalRecords = 0) (hp : 0 < p) :
    on_task_input fetch p limit = ⟨[], [], none, [1]⟩ := by
  have hz : totalPages 0 p = 0 := by
    simp only [totalPages, Nat.zero_add]
    exact Nat.div_eq_of_lt (by omega)
  simp only [on_task_input, get_page, h1, h0, hz]
  rfl

theorem claim_C5_witness :
    on_task_input (fetchOfPages [⟨0, []⟩]) 50 (.int 1) = ⟨[], [], none, [1]⟩ :=
  claim_C5 (fetchOfPages [⟨0, []⟩]) 50 (.int 1) ⟨0, []⟩ rfl rfl (by decide)

/-- C7: an item that reaches normalization (its group is still under the
cap) but fails the validity predicate is reported on the diagnostics
channel, excluded from the yielded entries, and the loop continues with
the remaining items under the updated counter; moreover a run never
aborts for a record-validity reason (its error is `none` whenever every
fetch succeeds). -/
theorem claim_C7 (limit : LimitConfig) (r : RawRecord) (rest : List RawRecord)
    (c : Nat → Nat) (hinv : (mkEntry r).isvalid = false)
    (hcnt : (c r.seriesId : Int) < limit.pyVal) :
    processRecords limit (r :: rest) c =
      ((processRecords limit rest (bump c r.seriesId)).1,
       Diag.invalidEntry (mkEntry r) ::
         (processRecords limit rest (bump c r.seriesId)).2.1,
       (processRecords limit rest (bump c r.seriesId)).2.2) ∧
    ∀ (ps : List Page) (p : Nat) (pg0 : Page), ps[0]? = some pg0 →
      ps.length = max 1 (totalPages pg0.totalRecords p) →
      (on_task_input (fetchOfPages ps) p limit).error = none := by
  constructor
  · simp only [processRecords, if_pos hcnt, hinv, Bool.false_eq_true,
      if_false]
  · intro ps p pg0 h0 hlen
    rw [on_task_input_pages ps p limit pg0 h0 hlen]

theorem claim_C7_witness :
    (mkEntry rBad).isvalid = false ∧
    ((counter0 rBad.seriesId : Int) < (LimitConfig.int 5).pyVal) ∧
    processRecords (.int 5) (rBad :: [rShow]) counter0 =
      ((processRecords (.int 5) [rShow] (bump counter0 rBad.seriesId)).1,
       Diag.invalidEntry (mkEntry rBad) ::
         (processRecords (.int 5) [rShow] (bump counter0 rBad.seriesId)).2.1,
       (processRecords (.int 5) [rShow] (bump counter0 rBad.seriesId)).2.2) :=
  ⟨rfl, by decide,
    (claim_C7 (.int 5) rBad [rShow] counter0 rfl (by decide)).1⟩

/-- C9: every produced entry's composite code is `S`, the season
zero-padded to width 2, `E`, the episode zero-padded to width 2, and its
title label is the series title, a space, and that code; the padding gives
`S02E05` and `S11E03` on the spec's examples and never truncates numbers
of two or more digits. -/
theorem claim_C9 :
    (∀ r : RawRecord,
        (mkEntry r).series_id =
          "S" ++ padTo2 (decStr r.seasonNumber) ++ "E" ++
            padTo2 (decStr r.episodeNumber) ∧
        (mkEntry r).title =
          (mkEntry r).series_name ++ " " ++ (mkEntry r).series_id) ∧
    seCode 2 5 = "S02E05" ∧
    seCode 11 3 = "S11E03" ∧
    ∀ s e : Nat, 10 ≤ s → 10 ≤ e →
      seCode s e = "S" ++ decStr s ++ "E" ++ decStr e := by
  refine ⟨fun r => ⟨rfl, rfl⟩, by decide, by decide, fun s e hs he => ?_⟩
  simp only [seCode, padTo2_eq_self _ (decStr_length_of_ten s hs),
    padTo2_eq_self _ (decStr_length_of_ten e he)]

theorem claim_C9_witness :
    10 ≤ 123 ∧ 10 ≤ 456 ∧
    seCode 123 456 = "S" ++ decStr 123 ++ "E" ++ decStr 456 :=
  ⟨by decide, by decide, claim_C9.2.2.2 123 456 (by decide) (by decide)⟩

/-- C10: with the boolean `false` limit the code normalizes a separate
variable to the infinite sentinel but compares the running count against
the raw config value, which Python evaluates as `0`; no natural count is
ever below `0`, so every record fails the check and the run emits nothing
while still fetching every page. -/
theorem claim_C10 (ps : List Page) (p : Nat) (pg0 : Page)
    (h0 : ps[0]? = some pg0)
    (hlen : ps.length = max 1 (totalPages pg0.totalRecords p)) :
    LimitConfig.normalized (.bool false) = none ∧
    LimitConfig.pyVal (.bool false) = 0 ∧
    (∀ cnt : Nat, ¬((cnt : Int) < LimitConfig.pyVal (.bool false))) ∧
    on_task_input (fetchOfPages ps) p (.bool false) =
      ⟨[], [], none, List.range' 1 (max 1 (totalPages pg0.totalRecords p))⟩ := by
  refine ⟨rfl, rfl, fun cnt => by simp [LimitConfig.pyVal], ?_⟩
  rw [on_task_input_pages ps p (.bool false) pg0 h0 hlen,
    processPages_boolFalse]

theorem claim_C10_witness :
    ps2[0]? = some ⟨3, [rA, rB]⟩ ∧
    on_task_input (fetchOfPages ps2) 2 (.bool false) =
      ⟨[], [], none, [1, 2]⟩ :=
  ⟨rfl, (claim_C10 ps2 2 ⟨3, [rA, rB]⟩ rfl rfl).2.2.2⟩

/-- C3 counterexample: with limit 1 and a page whose group-7 records are an
invalid item followed by a valid one, the run emits nothing for group 7,
yet `min(L, available items for group 7) = min(1, 2) = 1`: the claimed
equality fails because the invalid item consumed the allowance. -/
theorem claim_C3_counterexample :
    (on_task_input (fetchOfPages [⟨2, [rBad7, rGood7]⟩]) 50 (.int 1)).entries
      = [] ∧
    countG 7 [rBad7, rGood7] = 2 ∧
    ¬(0 = min (Int.toNat 1) (countG 7 [rBad7, rGood7])) := by
  refine ⟨rfl, by decide, by decide⟩

/-- C3 (amended): for an integer limit `L ≥ 1` the run's output is the
`mkEntry` image of the emitted sublist of all records of the fetched
pages; per group at most `L` records are emitted; when every record is
valid the per-group emitted count is exactly `min(L, available records of
the group)`; and the final counter of a group is `min(L, available)`
whether or not records are valid — a record skipped by the cap check never
increments it. -/
theorem claim_C3 (ps : List Page) (p : Nat) (L : Int) (g : Nat) (pg0 : Page)
    (all : List RawRecord) (h0 : ps[0]? = some pg0) (_hL : 1 ≤ L)
    (hlen : ps.length = max 1 (totalPages pg0.totalRecords p))
    (hall : all =
      ((ps.take (totalPages pg0.totalRecords p)).map Page.records).flatten) :
    (on_task_input (fetchOfPages ps) p (.int L)).entries =
      (emittedRecords (.int L) all counter0).map mkEntry ∧
    countG g (emittedRecords (.int L) all counter0) ≤ L.toNat ∧
    ((∀ r ∈ all, (mkEntry r).isvalid = true) →
      countG g (emittedRecords (.int L) all counter0) =
        min L.toNat (countG g all)) ∧
    (processRecords (.int L) all counter0).2.2 g = min L.toNat (countG g all) := by
  subst hall
  refine ⟨?_, ?_, ?_, ?_⟩
  · rw [on_task_input_pages ps p (.int L) pg0 h0 hlen, processPages_eq_flat]
    exact processRecords_entries _ _ _
  · have h := emitted_count_le L g
      (((ps.take (totalPages pg0.totalRecords p)).map Page.records).flatten)
      counter0
    simpa [counter0] using h
  · intro hv
    have h := emitted_count_eq L g
      (((ps.take (totalPages pg0.totalRecords p)).map Page.records).flatten)
      hv counter0
    simpa [counter0] using h
  · have h := processRecords_counter_int L g
      (((ps.take (totalPages pg0.totalRecords p)).map Page.records).flatten)
      counter0 (by simp [counter0])
    simpa [counter0] using h

theorem claim_C3_witness :
    (1 : Int) ≤ 2 ∧
    ((on_task_input (fetchOfPages [⟨3, [sC1, sC2, sC3]⟩]) 50 (.int 2)).entries =
       (emittedRecords (.int 2) [sC1, sC2, sC3] counter0).map mkEntry ∧
     countG 9 (emittedRecords (.int 2) [sC1, sC2, sC3] counter0) ≤
       Int.toNat 2 ∧
     ((∀ r ∈ [sC1, sC2, sC3], (mkEntry r).isvalid = true) →
       countG 9 (emittedRecords (.int 2) [sC1, sC2, sC3] counter0) =
         min (Int.toNat 2) (countG 9 [sC1, sC2, sC3])) ∧
     (processRecords (.int 2) [sC1, sC2, sC3] counter0).2.2 9 =
       min (Int.toNat 2) (countG 9 [sC1, sC2, sC3])) :=
  ⟨by decide,
    claim_C3 [⟨3, [sC1, sC2, sC3]⟩] 50 2 9 ⟨3, [sC1, sC2, sC3]⟩
      [sC1, sC2, sC3] rfl (by decide) rfl rfl⟩

/-- C4 counterexample: with `totalRecords = 0` and page size 50 the
computed page count is 0, yet the fetch capability is called once (to read
`totalRecords` from page 1), so the call count does not equal
`ceil(t / p) = 0`. -/
theorem claim_C4_counterexample :
    totalPages 0 50 = 0 ∧
    (on_task_input (fetchOfPages [⟨0, []⟩]) 50 (.int 1)).calls = [1] := by
  refine ⟨rfl, rfl⟩

/-- C4 (amended): the computed page count equals `ceil(t / p)` for every
`p > 0`, and the aggregator issues exactly `max 1 (ceil(t / p))` fetch
calls: pages `1..N` once each when `N = ceil(t / p) ≥ 1` (page 1 never
re-fetched), and the single initial page-1 call when `t = 0`. -/
theorem claim_C4 (ps : List Page) (p t : Nat) (limit : LimitConfig)
    (pg0 : Page) (h0 : ps[0]? = some pg0) (hp : 0 < p)
    (ht : pg0.totalRecords = t)
    (hlen : ps.length = max 1 (totalPages t p)) :
    totalPages t p = specCeil t p ∧
    (on_task_input (fetchOfPages ps) p limit).calls =
      List.range' 1 (max 1 (totalPages t p)) := by
  subst ht
  refine ⟨totalPages_eq_specCeil _ p hp, ?_⟩
  rw [on_task_input_pages ps p limit pg0 h0 hlen]

theorem claim_C4_witness :
    (0 : Nat) < 50 ∧
    (totalPages 120 50 = specCeil 120 50 ∧
     (on_task_input (fetchOfPages [⟨120, []⟩, ⟨120, []⟩, ⟨120, []⟩]) 50
        (.int 1)).calls = List.range' 1 (max 1 (totalPages 120 50))) :=
  ⟨by decide,
    claim_C4 [⟨120, []⟩, ⟨120, []⟩, ⟨120, []⟩] 50 120 (.int 1) ⟨120, []⟩
      rfl (by decide) rfl rfl⟩

/-- C6: the run's output is the `mkEntry` image of the emitted records,
and those form a sublist of the concatenation of the fetched pages'
records in page order: the aggregator preserves page-then-in-page source
order and never reorders items, however groups interleave. -/
theorem claim_C6 (ps : List Page) (p : Nat) (limit : LimitConfig)
    (pg0 : Page) (all : List RawRecord) (h0 : ps[0]? = some pg0)
    (hlen : ps.length = max 1 (totalPages pg0.totalRecords p))
    (hall : all =
      ((ps.take (totalPages pg0.totalRecords p)).map Page.records).flatten) :
    (on_task_input (fetchOfPages ps) p limit).entries =
      (emittedRecords limit all counter0).map mkEntry ∧
    List.Sublist (emittedRecords limit all counter0) all := by
  subst hall
  constructor
  · rw [on_task_input_pages ps p limit pg0 h0 hlen, processPages_eq_flat]
    exact processRecords_entries _ _ _
  · exact emittedRecords_sublist _ _ _

theorem claim_C6_witness :
    (on_task_input (fetchOfPages [⟨4, [rA, rB]⟩, ⟨4, [rA2, rGood7]⟩]) 2
       (.int 5)).entries =
      (emittedRecords (.int 5) [rA, rB, rA2, rGood7] counter0).map mkEntry ∧
    List.Sublist (emittedRecords (.int 5) [rA, rB, rA2, rGood7] counter0)
      [rA, rB, rA2, rGood7] :=
  claim_C6 [⟨4, [rA, rB]⟩, ⟨4, [rA2, rGood7]⟩] 2 (.int 5) ⟨4, [rA, rB]⟩
    [rA, rB, rA2, rGood7] rfl rfl rfl

/-- C8: when the fetch capability answers pages `1..k-1` and fails at page
`k ≤ totalPages`, the failure is not retried (each page number is fetched
at most once: the call list is exactly `[1..k]`), it propagates as the
distinguishable `PluginError` wrapping the underlying failure and aborts
the run (no later page is fetched), and the entries already yielded from
the successful pages are kept. -/
theorem claim_C8 (fetch : Nat → Except FetchErr Page) (p : Nat)
    (limit : LimitConfig) (ps : List Page) (pg0 : Page) (e : FetchErr)
    (m : Nat) (h0 : ps[0]? = some pg0)
    (hok : ∀ i, i < ps.length → fetch (i + 1) = .ok (ps.getD i pg0))
    (herr : fetch (ps.length + 1) = .error e)
    (hN : totalPages pg0.totalRecords p = ps.length + 1 + m) :
    on_task_input fetch p limit =
      ⟨(processPages limit ps counter0).1,
       (processPages limit ps counter0).2.1,
       some ⟨e⟩, List.range' 1 (ps.length + 1)⟩ := by
  obtain ⟨tail, rfl⟩ : ∃ t, ps = pg0 :: t := by
    cases ps with
    | nil => simp at h0
    | cons a t =>
      simp only [List.getElem?_cons_zero, Option.some_inj] at h0
      exact ⟨t, by rw [h0]⟩
  have hf1 : fetch 1 = .ok pg0 := by
    have := hok 0 (by simp)
    simpa using this
  have hrest : ∀ i, (hi : i < tail.length) →
      fetch (2 + i) = .ok (tail.get ⟨i, hi⟩) := by
    intro i hi
    have h := hok (i + 1) (by simpa using Nat.succ_lt_succ hi)
    have hget : (pg0 :: tail).getD (i + 1) pg0 = tail.get ⟨i, hi⟩ := by
      simp [List.getD, List.getElem?_cons_succ, List.getElem?_eq_getElem hi]
    rw [hget] at h
    have harg : i + 1 + 1 = 2 + i := by omega
    rw [harg] at h
    exact h
  have herr2 : fetch (2 + tail.length) = .error e := by
    have harg : (pg0 :: tail).length + 1 = 2 + tail.length := by
      simp; omega
    rw [harg] at herr
    exact herr
  have hlen2 : (pg0 :: tail).length + 1 + m = (tail.length + 1 + m) + 1 := by
    simp; omega
  simp only [on_task_input, get_page, hf1, hN, hlen2, List.range'_succ]
  simp only [runFrom, show ¬(1 < 1) by omega, if_neg, get_page]
  rw [runFrom_fail fetch limit pg0 tail e 2 m _ (by omega) hrest herr2]
  simp [processPages, List.range'_succ]

/-- A fetch capability that serves page 1 and fails afterwards, for
exercising the mid-run failure behavior. -/
def failAfterOne : Nat → Except FetchErr Page :=
  fun n =>
    if n = 1 then .ok ⟨200, [rShow]⟩
    else .error (.requestException "boom")

theorem claim_C8_witness :
    failAfterOne ([(⟨200, [rShow]⟩ : Page)].length + 1) =
      .error (.requestException "boom") ∧
    totalPages (200 : Nat) 50 = [(⟨200, [rShow]⟩ : Page)].length + 1 + 2 ∧
    on_task_input failAfterOne 50 (.int 1) =
      ⟨(processPages (.int 1) [⟨200, [rShow]⟩] counter0).1,
       (processPages (.int 1) [⟨200, [rShow]⟩] counter0).2.1,
       some ⟨.requestException "boom"⟩, List.range' 1 2⟩ :=
  ⟨rfl, rfl,
    claim_C8 failAfterOne 50 (.int 1) [⟨200, [rShow]⟩] ⟨200, [rShow]⟩
      (.requestException "boom") 2 rfl
      (fun i hi => by
        match i, hi with
        | 0, _ => rfl)
      rfl rfl⟩

end NextSonarrEpisodes
